import Mathlib

/-!
# Verification of `pyeqbal` geographic balancing

Shallow embedding of `src/pyeqbal/geobalance.py` (and the configuration table
in `src/pyeqbal/constants.py`): spatial binning of an event catalog into a
regular 3-D voxel grid, followed by a per-voxel cap on retained events.

Modelling conventions:
* numpy float arrays are `List ℚ` (exact arithmetic);
* a pandas `DataFrame` is a list of row records; rows carry an opaque `tag`
  payload standing for the columns the code does not touch, so that rows have
  identity and stability statements are meaningful;
* Python exceptions are values of `PyError` threaded through `Except`;
* the mutable attribute state of a `Voxels` object is threaded explicitly:
  a method returns its result together with the post-state of the object and
  of the caller's frame.
-/

/-- Python exceptions the modeled code can raise. -/
inductive PyError where
  | attributeError
  | assertionError
  | typeError
deriving DecidableEq, Repr

/-! ## `slices` (geobalance.py lines 12-29) -/

/-- Value at index `m` of `np.linspace(mn, mx, n)`:
`start + m * (stop - start) / (num - 1)`. -/
def linspaceF (mn mx : ℚ) (n m : ℕ) : ℚ :=
  mn + (m : ℚ) * (mx - mn) / ((n : ℚ) - 1)

/-- Model of `np.linspace(mn, mx, n)` over exact rationals: `n` evenly spaced values
from `mn` to `mx`, both endpoints included (`linspace` computes
`start + m * (stop - start) / (num - 1)` and pins the final value to `stop`,
which over exact arithmetic is the same formula). -/
def linspace (mn mx : ℚ) (n : ℕ) : List ℚ :=
  (List.range n).map (linspaceF mn mx n)

/-- Model of `slices(min, max, N)` (lines 12-29): `assert N >= 2` and then
`np.linspace(min, max, N)`. The failed `assert` raises `AssertionError`
(the spec's "InvalidConfiguration" failure); a pure function otherwise. -/
def slices (mn mx : ℚ) (N : ℤ) : Except PyError (List ℚ) :=
  if 2 ≤ N then .ok (linspace mn mx N.toNat) else .error .assertionError

/-! ## `reduce_event_count_per_voxel` (geobalance.py lines 32-49) -/

/-- One row of the frame handed to the reducer: an assigned voxel number, the
`num_obs` observation count, and an opaque payload `tag` for the remaining
columns. -/
structure Obs where
  voxel : ℤ
  num_obs : ℤ
  tag : ℕ
deriving DecidableEq, Repr

/-- Relation meaning row `a` may precede row `b` in
`df.sort_values(["voxel", "num_obs"], ascending=False)`: descending
lexicographic comparison of the `(voxel, num_obs)` key. -/
def keyLE (a b : Obs) : Prop :=
  b.voxel < a.voxel ∨ (b.voxel = a.voxel ∧ b.num_obs ≤ a.num_obs)

instance : DecidableRel keyLE := fun a b => by unfold keyLE; exact inferInstance

instance : IsTotal Obs keyLE := ⟨by intro a b; unfold keyLE; omega⟩

instance : IsTrans Obs keyLE := ⟨by intro a b c; unfold keyLE; omega⟩

/-- The spec's normalization order for comparing reducer outputs: voxel
ascending, observation count descending. -/
def normLE (a b : Obs) : Prop :=
  a.voxel < b.voxel ∨ (a.voxel = b.voxel ∧ b.num_obs ≤ a.num_obs)

instance : DecidableRel normLE := fun a b => by unfold normLE; exact inferInstance

instance : IsTotal Obs normLE := ⟨by intro a b; unfold normLE; omega⟩

instance : IsTrans Obs normLE := ⟨by intro a b c; unfold normLE; omega⟩

/-- Observation count descending, ignoring the voxel: the within-group order
of the spec. -/
def nobsGE (a b : Obs) : Prop := b.num_obs ≤ a.num_obs

instance : DecidableRel nobsGE := fun a b => by unfold nobsGE; exact inferInstance

instance : IsTotal Obs nobsGE := ⟨by intro a b; unfold nobsGE; omega⟩

instance : IsTrans Obs nobsGE := ⟨by intro a b c; unfold nobsGE; omega⟩

/-- The per-group cap actually applied by `GroupBy.head(n)`: `n` itself when
`n ≥ 0`, and `group size + n` when `n < 0` (pandas then keeps all but the
last `|n|` rows of each group). -/
def headCap (n : ℤ) (df : List Obs) (v : ℤ) : ℤ :=
  if n < 0 then n + df.countP (fun e => e.voxel == v) else n

/-- Walk the (already sorted) frame in order, keeping each row whose running
within-group index (pandas `cumcount`) is below the cap of its group.
`GroupBy.head` preserves the order of the calling frame. -/
def groupHeadAux (cap : ℤ → ℤ) (seen : ℤ → ℕ) : List Obs → List Obs
  | [] => []
  | e :: l =>
    let seen' : ℤ → ℕ := fun v => if v = e.voxel then seen v + 1 else seen v
    if (seen e.voxel : ℤ) < cap e.voxel then e :: groupHeadAux cap seen' l
    else groupHeadAux cap seen' l

/-- Model of `reduce_event_count_per_voxel(df, NOBS_MAX)` (lines 32-49):
`df.sort_values(["voxel", "num_obs"], ascending=False).groupby('voxel').head(NOBS_MAX)`.
A multi-column `sort_values` is performed with `np.lexsort`, which is stable;
the stable sort is modeled with `List.insertionSort` under `keyLE`.
No validation of `NOBS_MAX` is performed anywhere in the function. -/
def reduce_event_count_per_voxel (df : List Obs) (NOBS_MAX : ℤ) : List Obs :=
  groupHeadAux (headCap NOBS_MAX (df.insertionSort keyLE)) (fun _ => 0)
    (df.insertionSort keyLE)

/-! ## The voxel grid loop inside `assign_voxels` (geobalance.py lines 128-152) -/

/-- Cell index triples in the enumeration order of the triple loop of
`assign_voxels` (lines 137-139): `i` over the X cells outermost, then `j`,
then `k` innermost; each axis contributes `len(A[:-1]) = len(A) - 1` cells. -/
def cellTriples (nx ny nz : ℕ) : List (ℕ × ℕ × ℕ) :=
  (List.range nx).flatMap fun i =>
    (List.range ny).flatMap fun j =>
      (List.range nz).map fun k => (i, j, k)

/-- One axis of the membership test of lines 144-146: `X[i] < c ≤ X[i+1]`
(low-exclusive, high-inclusive). -/
def axHit (X : List ℚ) (c : ℚ) (i : ℕ) : Bool :=
  decide (X.getD i 0 < c) && decide (c ≤ X.getD (i + 1) 0)

/-- The full membership condition appended to `bounds` for cell `(i, j, k)`
(lines 143-147), evaluated at a point `(x, y, z)`. -/
def matchesCell (X Y Z : List ℚ) (p : ℚ × ℚ × ℚ) (t : ℕ × ℕ × ℕ) : Bool :=
  axHit X p.1 t.1 && axHit Y p.2.1 t.2.1 && axHit Z p.2.2 t.2.2

/-- Model of `np.select(bounds, cell)` for one row (line 152): the first condition in
`bounds` that holds selects the corresponding entry of `cell`, which equals
that cell's enumeration index; a row matching no condition gets numpy's
default value `0`. -/
def selectVoxel (X Y Z : List ℚ) (p : ℚ × ℚ × ℚ) : ℤ :=
  match (cellTriples (X.length - 1) (Y.length - 1) (Z.length - 1)).findIdx?
      (matchesCell X Y Z p) with
  | some m => (m : ℤ)
  | none => 0

/-- One row of the `voxel_locs` table: coordinate ranges, midpoints and the
linear voxel number of a cell. -/
structure VoxelInfo where
  Xrange : ℚ × ℚ
  Yrange : ℚ × ℚ
  Zrange : ℚ × ℚ
  Xmid : ℚ
  Ymid : ℚ
  Zmid : ℚ
  Vnum : ℤ
deriving DecidableEq, Repr

/-- Model of `grab_voxel_info` (lines 52-75): the row recorded for cell `t = (i, j, k)`
with running counter `count`; `np.median` of two values is their mean. -/
def grab_voxel_info (X Y Z : List ℚ) (t : ℕ × ℕ × ℕ) (count : ℕ) : VoxelInfo :=
  { Xrange := (X.getD t.1 0, X.getD (t.1 + 1) 0)
    Yrange := (Y.getD t.2.1 0, Y.getD (t.2.1 + 1) 0)
    Zrange := (Z.getD t.2.2 0, Z.getD (t.2.2 + 1) 0)
    Xmid := (X.getD t.1 0 + X.getD (t.1 + 1) 0) / 2
    Ymid := (Y.getD t.2.1 0 + Y.getD (t.2.1 + 1) 0) / 2
    Zmid := (Z.getD t.2.2 0 + Z.getD (t.2.2 + 1) 0) / 2
    Vnum := (count : ℤ) }

/-- Table `pd.DataFrame(voxel_locs)` built by the loop (lines 131-150):
one `VoxelInfo` per cell, in loop order, `Vnum` being the running counter
`count` (the number of cells enumerated before it). -/
def voxelTable (X Y Z : List ℚ) : List VoxelInfo :=
  ((cellTriples (X.length - 1) (Y.length - 1) (Z.length - 1)).enum).map
    fun ic => grab_voxel_info X Y Z ic.2 ic.1

/-! ## The `Voxels` dataclass (geobalance.py lines 79-154) -/

/-- A value stored in a slice-holding attribute of a `Voxels` instance. -/
inductive Attr where
  /-- a numpy array of axis boundaries -/
  | arr : List ℚ → Attr
  /-- a tuple of arrays: the class-level defaults of `x_slices` and
  `y_slices` end in a trailing comma, making them 1-tuples -/
  | tup : List (List ℚ) → Attr
  /-- the `dict(X=x, Y=y, Z=z)` stored by `combine_slices` -/
  | dict : Attr → Attr → Attr → Attr
deriving DecidableEq

/-- The attribute names the `Voxels` code reads or writes. -/
inductive AttrName where
  | x_slices | y_slices | z_slices | all_slices | voxels | slices
deriving DecidableEq

/-- Attribute state of a `Voxels` instance. `all_slices` is absent (`none`)
until `combine_slices` has run; `voxels` is absent until the assignment at
line 150 would store the cell table. (The class-level slice defaults cannot
even be evaluated: the class body reads `C.LON_MIN`, `C.LAT_MIN`, `C.DEP_MIN`
and friends, which `GeoBalanceConstants` — defining `X_MIN`, `Y_MIN`,
`Z_MIN`, ... — does not provide; any usable instance supplies its own slice
values.) -/
structure Voxels where
  x_slices : Attr
  y_slices : Attr
  z_slices : Attr
  all_slices : Option Attr := none
  voxels : Option (List VoxelInfo) := none
deriving DecidableEq

/-- Python attribute lookup on a `Voxels` instance: the defined attributes
are the three dataclass fields, `all_slices` once `combine_slices` has run,
and `voxels` once line 150 has run. Nothing — neither the dataclass
machinery, nor `__post_init__`, nor the class body — ever binds the name
`slices` on the instance or the class, so that lookup yields nothing
(an `AttributeError` at use sites). -/
def Voxels.getattr (v : Voxels) : AttrName → Option Attr
  | .x_slices => some v.x_slices
  | .y_slices => some v.y_slices
  | .z_slices => some v.z_slices
  | .all_slices => v.all_slices
  | .voxels => none
  | .slices => none

/-- Model of `combine_slices` (lines 97-105): `self.all_slices = dict(X=x, Y=y, Z=z)`. -/
def Voxels.combine_slices (v : Voxels) (x y z : Attr) : Voxels :=
  { v with all_slices := some (.dict x y z) }

/-- Dataclass construction followed by `__post_init__` (lines 92-95), with
the three slice attributes as supplied by the caller. -/
def Voxels.init (x y z : Attr) : Voxels :=
  Voxels.combine_slices { x_slices := x, y_slices := y, z_slices := z } x y z

/-- One input row for `assign_voxels`: the three coordinate columns (under
the configured `xlabel`/`ylabel`/`zlabel`, defaults `"EqLon"`, `"EqLat"`,
`"EqDep"`) and an opaque payload for the remaining columns. -/
structure EvRow where
  x : ℚ
  y : ℚ
  z : ℚ
  tag : ℕ
deriving DecidableEq, Repr

/-- An output row of `assign_voxels`: the input row plus the added `voxel`
column. -/
structure AssignedRow where
  row : EvRow
  voxel : ℤ
deriving DecidableEq, Repr

/-- Model of `assign_voxels` (lines 107-154), with the object and the caller's frame
threaded as explicit state: the result triple is
`(returned value or exception, object after the call, caller frame after the
call)`. Line 124 (`df = df.copy(deep=True)`) rebinds the local name to a deep
copy, so every later write targets the copy and the caller's frame component
is returned as received. Line 126 then reads `self.slices`, an attribute no
instance defines, so the method raises `AttributeError` there; the rest of
the body (the loop of lines 137-148, the store `self.voxels = ...` of line
150 and the column assignment of line 152) is modeled for completeness but
is unreachable. -/
def Voxels.assign_voxels (self : Voxels) (df : List EvRow) :
    Except PyError (List AssignedRow) × Voxels × List EvRow :=
  match self.getattr .slices with
  | none => (.error .attributeError, self, df)
  | some a =>
    match a with
    | .dict (.arr X) (.arr Y) (.arr Z) =>
      let table := voxelTable X Y Z
      let out := df.map fun e =>
        { row := e, voxel := selectVoxel X Y Z (e.x, e.y, e.z) }
      (.ok out, { self with voxels := some table }, df)
    | _ => (.error .typeError, self, df)

/-! ## The configuration table (`constants.py`) -/

/- `GeoBalanceConstants` (constants.py). Note the names: the axis bounds are
`X_MIN`/`X_MAX` etc., while the `Voxels` class body asks for `LON_MIN`,
`LAT_MIN`, `DEP_MIN` and their companions. -/
namespace GeoBalanceConstants

def X_MIN : ℚ := -227 / 2
def X_MAX : ℚ := -109
def Y_MIN : ℚ := 437 / 10
def Y_MAX : ℚ := 457 / 10
def Z_MIN : ℚ := 0
def Z_MAX : ℚ := 25
def X_SLICES : ℤ := 35
def Y_SLICES : ℤ := 35
def Z_SLICES : ℤ := 6
def NOBS_MAX : ℤ := 10

end GeoBalanceConstants

/-! ## Supporting lemmas about `linspace` -/

theorem linspace_length (mn mx : ℚ) (n : ℕ) : (linspace mn mx n).length = n := by
  simp [linspace]

theorem linspace_getElem? (mn mx : ℚ) {n m : ℕ} (hm : m < n) :
    (linspace mn mx n)[m]? = some (linspaceF mn mx n m) := by
  simp [linspace, List.getElem?_map, List.getElem?_range hm]

/-! ## C1, C2, C3: the `assign_voxels` method -/

/-- C1. For every `Voxels` instance — however its slice fields were
supplied — and every input frame, `assign_voxels` fails with an
`AttributeError` before producing any annotated output: line 126 reads the
attribute `slices`, but construction only ever defines `all_slices` (via
`combine_slices`), so no attribute named `slices` exists on the object and
`assign_voxels` never returns. -/
theorem C1_assign_voxels_attribute_error (x y z : Attr) (df : List EvRow) :
    (Voxels.init x y z).assign_voxels df =
      (.error .attributeError, Voxels.init x y z, df) := rfl

/-- C2. The method `assign_voxels` has no side effect beyond its returned value: for
every input frame and every `Voxels` object the caller's frame is unchanged
after the call and the object state is unchanged. (This holds because the
method raises `AttributeError` at line 126, before its only mutating
statement, the store `self.voxels = pd.DataFrame(voxel_locs)` at line 150;
the copy at line 124 in any case shields the caller's frame.) -/
theorem C2_assign_voxels_frame (v : Voxels) (df : List EvRow) :
    (v.assign_voxels df).2.1 = v ∧ (v.assign_voxels df).2.2 = df :=
  ⟨rfl, rfl⟩

/-- C3. The claim says an event at the global axis minimum (or outside
the box) matches zero cells and is deterministically assigned the sentinel
voxel `0` with no exception raised. That is what the `np.select(bounds,
cell)` logic of lines 143-152 computes (second conjunct, at the boundary
grid `[0,1]×[0,1]×[0,1]` with the event at the global minimum `(0,0,0)`),
and it matches the method's documented contract — but the method never
reaches that code: the `self.slices` read at line 126 raises
`AttributeError` on every call (first conjunct), contradicting the claim's
"no exception is raised". -/
theorem C3_sentinel_unreachable :
    ((Voxels.init (.arr [0, 1]) (.arr [0, 1]) (.arr [0, 1])).assign_voxels
        [⟨0, 0, 0, 0⟩]).1 = .error .attributeError
    ∧ selectVoxel [0, 1] [0, 1] [0, 1] (0, 0, 0) = 0 := by
  exact ⟨rfl, by decide⟩

/-! ## C8, C9: the `slices` axis slicer -/

/-- C8. For every `min < max` and every integer `n ≥ 2`,
`slices(min, max, n)` returns exactly `n` values that are strictly
increasing, with first value `min`, last value `max`, and all consecutive
gaps equal — each boundary obeys `boundary[m] = min + m*(max-min)/(n-1)`;
for `n = 2` it returns exactly `[min, max]`. -/
theorem C8_slices_evenly_spaced (mn mx : ℚ) (n : ℕ) (h1 : mn < mx)
    (h2 : 2 ≤ n) :
    slices mn mx (n : ℤ) = .ok (linspace mn mx n) ∧
    (linspace mn mx n).length = n ∧
    List.Chain' (· < ·) (linspace mn mx n) ∧
    (linspace mn mx n).head? = some mn ∧
    (linspace mn mx n).getLast? = some mx ∧
    (∀ m, m < n → (linspace mn mx n).getD m 0 =
      mn + (m : ℚ) * (mx - mn) / ((n : ℚ) - 1)) ∧
    linspace mn mx 2 = [mn, mx] := by
  have hc : (0 : ℚ) < (n : ℚ) - 1 := by
    have : (2 : ℚ) ≤ (n : ℚ) := by exact_mod_cast h2
    linarith
  have hd : (0 : ℚ) < mx - mn := by linarith
  have hlen := linspace_length mn mx n
  refine ⟨?_, hlen, ?_, ?_, ?_, ?_, ?_⟩
  · rw [slices, if_pos (by exact_mod_cast h2), Int.toNat_ofNat]
  · obtain ⟨k, rfl⟩ : ∃ k, n = k + 1 := ⟨n - 1, by omega⟩
    rw [linspace, List.chain'_map, List.chain'_range_succ]
    intro m hm
    unfold linspaceF
    have hcc : (0 : ℚ) < (k : ℚ) + 1 - 1 := by push_cast at hc; linarith
    push_cast
    rw [add_lt_add_iff_left, div_lt_div_iff₀ hcc hcc]
    nlinarith
  · rw [List.head?_eq_getElem?, linspace_getElem? mn mx (by omega : 0 < n)]
    unfold linspaceF
    norm_num
  · rw [List.getLast?_eq_getElem?, hlen,
      linspace_getElem? mn mx (by omega : n - 1 < n)]
    unfold linspaceF
    have hcast : ((n - 1 : ℕ) : ℚ) = (n : ℚ) - 1 := by
      have h1n : (1 : ℕ) ≤ n := by omega
      push_cast [h1n]
      ring
    rw [hcast, mul_div_assoc, mul_comm, div_mul_cancel₀ _ (ne_of_gt hc)]
    congr 1
    ring
  · intro m hm
    rw [List.getD_eq_getElem?_getD, linspace_getElem? mn mx hm]
    rfl
  · rw [linspace]
    norm_num [List.range_succ, linspaceF]

/-- Witness for C8 at `min = 0`, `max = 1`, `n = 3`. -/
theorem C8_slices_evenly_spaced_witness :
    slices 0 1 (3 : ℤ) = .ok (linspace 0 1 3) ∧ (linspace 0 1 3).length = 3 :=
  ⟨(C8_slices_evenly_spaced 0 1 3 (by norm_num) (by norm_num)).1,
   (C8_slices_evenly_spaced 0 1 3 (by norm_num) (by norm_num)).2.1⟩

/-- C9. For every `min`, `max` and every integer `n < 2`, `slices` fails
with the `assert` (the spec's InvalidConfiguration) instead of returning a
boundary sequence; for `n ≥ 2` it never fails — it returns the linspace
boundaries — and, being a pure function, has no side effects. -/
theorem C9_slices_validation (mn mx : ℚ) (n : ℤ) :
    (n < 2 → slices mn mx n = .error .assertionError) ∧
    (2 ≤ n → slices mn mx n = .ok (linspace mn mx n.toNat)) := by
  constructor
  · intro h
    rw [slices, if_neg (by omega)]
  · intro h
    rw [slices, if_pos h]

/-- Witness for C9 at `n = 1` (failure) and `n = 3` (success). -/
theorem C9_slices_validation_witness :
    slices 0 1 (1 : ℤ) = .error .assertionError ∧
    slices 0 1 (3 : ℤ) = .ok (linspace 0 1 (3 : ℤ).toNat) :=
  ⟨(C9_slices_validation 0 1 1).1 (by norm_num),
   (C9_slices_validation 0 1 3).2 (by norm_num)⟩

/-! ## Supporting lemmas: stable sorting -/

section StableSortSupport

variable {α : Type*} {r : α → α → Prop} [DecidableRel r]

theorem orderedInsert_eq_cons_of_forall {a : α} {M : List α} (h : ∀ c ∈ M, r a c) :
    M.orderedInsert r a = a :: M := by
  cases M with
  | nil => rfl
  | cons b L => exact List.orderedInsert_of_le r L (h b (List.mem_cons_self b L))

theorem filter_orderedInsert_pos [IsTrans α r] (p : α → Bool) {a : α} (ha : p a = true) :
    ∀ {L : List α}, L.Sorted r →
      (L.orderedInsert r a).filter p = (L.filter p).orderedInsert r a
  | [], _ => by simp [ha]
  | b :: L, hL => by
    by_cases hab : r a b
    · rw [List.orderedInsert_of_le r L hab, List.filter_cons_of_pos ha]
      rw [orderedInsert_eq_cons_of_forall]
      intro c hc
      rw [List.mem_filter] at hc
      rcases List.mem_cons.mp hc.1 with h1 | h1
      · exact h1 ▸ hab
      · exact Trans.trans hab (List.rel_of_sorted_cons hL c h1)
    · simp only [List.orderedInsert, if_neg hab]
      by_cases hb : p b
      · rw [List.filter_cons_of_pos hb, List.filter_cons_of_pos hb,
          filter_orderedInsert_pos p ha hL.of_cons]
        simp only [List.orderedInsert, if_neg hab]
      · rw [List.filter_cons_of_neg (by simpa using hb),
          List.filter_cons_of_neg (by simpa using hb),
          filter_orderedInsert_pos p ha hL.of_cons]

theorem filter_orderedInsert_neg (p : α → Bool) {a : α} (ha : p a = false) :
    ∀ (L : List α), (L.orderedInsert r a).filter p = L.filter p
  | [] => by simp [ha]
  | b :: L => by
    by_cases hab : r a b
    · rw [List.orderedInsert_of_le r L hab, List.filter_cons_of_neg (by simp [ha])]
    · simp only [List.orderedInsert, if_neg hab]
      by_cases hb : p b
      · rw [List.filter_cons_of_pos hb, List.filter_cons_of_pos hb,
          filter_orderedInsert_neg p ha L]
      · rw [List.filter_cons_of_neg (by simpa using hb),
          List.filter_cons_of_neg (by simpa using hb),
          filter_orderedInsert_neg p ha L]

/-- A stable sort commutes with any row filter. -/
theorem filter_insertionSort [IsTotal α r] [IsTrans α r] (p : α → Bool) :
    ∀ l : List α, (l.insertionSort r).filter p = (l.filter p).insertionSort r
  | [] => rfl
  | a :: l => by
    by_cases ha : p a
    · rw [List.insertionSort, filter_orderedInsert_pos p ha (List.sorted_insertionSort r l),
        List.filter_cons_of_pos ha, List.insertionSort, filter_insertionSort p l]
    · rw [List.insertionSort, filter_orderedInsert_neg p (by simpa using ha),
        List.filter_cons_of_neg (by simpa using ha), filter_insertionSort p l]

theorem orderedInsert_congr {s : α → α → Prop} [DecidableRel s] {a : α} {M : List α}
    (h : ∀ b ∈ M, r a b ↔ s a b) :
    M.orderedInsert r a = M.orderedInsert s a := by
  induction M with
  | nil => rfl
  | cons b L ih =>
    simp only [List.orderedInsert]
    rw [if_congr (h b (List.mem_cons_self b L)) rfl
      (by rw [ih (fun c hc => h c (List.mem_cons_of_mem b hc))])]

theorem insertionSort_congr {s : α → α → Prop} [DecidableRel s]
    {l : List α} (h : ∀ a ∈ l, ∀ b ∈ l, r a b ↔ s a b) :
    l.insertionSort r = l.insertionSort s := by
  induction l with
  | nil => rfl
  | cons a l ih =>
    simp only [List.insertionSort]
    rw [ih (fun c hc d hd => h c (List.mem_cons_of_mem a hc) d (List.mem_cons_of_mem a hd))]
    apply orderedInsert_congr
    intro b hb
    exact h a (List.mem_cons_self a l) b
      (List.mem_cons_of_mem a ((List.mem_insertionSort s).mp hb))

omit [DecidableRel r] in
/-- Two sorted lists with identical key fibers are equal, provided mutual
`r`-comparability forces equal keys. -/
theorem sorted_eq_of_fiber_eq {κ : Type*} [DecidableEq κ] (key : α → κ)
    (htie : ∀ a b, r a b → r b a → key a = key b) :
    ∀ {L₁ L₂ : List α}, L₁.Sorted r → L₂.Sorted r →
      (∀ c : κ, L₁.filter (fun x => decide (key x = c)) =
        L₂.filter (fun x => decide (key x = c))) → L₁ = L₂
  | [], [], _, _, _ => rfl
  | [], b :: M, _, _, hf => by
    have h := hf (key b)
    rw [List.filter_nil, List.filter_cons_of_pos (by simp)] at h
    exact absurd h.symm (List.cons_ne_nil _ _)
  | a :: T, [], _, _, hf => by
    have h := hf (key a)
    rw [List.filter_nil, List.filter_cons_of_pos (by simp)] at h
    exact absurd h (List.cons_ne_nil _ _)
  | a :: T, b :: W, h1, h2, hf => by
    have hab : a = b := by
      by_cases hk : key a = key b
      · have h := hf (key b)
        rw [List.filter_cons_of_pos (by simp [hk]),
          List.filter_cons_of_pos (by simp)] at h
        exact (List.cons.inj h).1
      · have haW : a ∈ b :: W := by
          have ha1 : a ∈ (a :: T).filter (fun x => decide (key x = key a)) := by
            rw [List.mem_filter]
            exact ⟨List.mem_cons_self _ _, by simp⟩
          have : a ∈ (b :: W).filter (fun x => decide (key x = key a)) := by
            rw [← hf (key a)]; exact ha1
          exact (List.mem_filter.mp this).1
        have hbT : b ∈ a :: T := by
          have hb1 : b ∈ (b :: W).filter (fun x => decide (key x = key b)) := by
            rw [List.mem_filter]
            exact ⟨List.mem_cons_self _ _, by simp⟩
          have : b ∈ (a :: T).filter (fun x => decide (key x = key b)) := by
            rw [hf (key b)]; exact hb1
          exact (List.mem_filter.mp this).1
        rcases List.mem_cons.mp haW with he | haW'
        · exact he
        rcases List.mem_cons.mp hbT with he | hbT'
        · exact he.symm
        exact absurd (htie a b (List.rel_of_sorted_cons h1 b hbT')
          (List.rel_of_sorted_cons h2 a haW')) hk
    subst hab
    congr 1
    apply sorted_eq_of_fiber_eq key htie h1.of_cons h2.of_cons
    intro c
    have h := hf c
    by_cases hc : key a = c
    · rw [List.filter_cons_of_pos (by simp [hc]),
        List.filter_cons_of_pos (by simp [hc])] at h
      exact (List.cons.inj h).2
    · rwa [List.filter_cons_of_neg (by simp [hc]),
        List.filter_cons_of_neg (by simp [hc])] at h

end StableSortSupport

/-! ## Supporting lemmas: `groupby('voxel').head(n)` -/

theorem groupHeadAux_of_nonpos (cap : ℤ → ℤ) (hc : ∀ v, cap v ≤ 0) :
    ∀ (L : List Obs) (seen : ℤ → ℕ), groupHeadAux cap seen L = []
  | [], _ => rfl
  | e :: l, seen => by
    simp only [groupHeadAux]
    rw [if_neg (by have := hc e.voxel; omega)]
    exact groupHeadAux_of_nonpos cap hc l _

theorem groupHeadAux_keep_all (cap : ℤ → ℤ) :
    ∀ (L : List Obs) (seen : ℤ → ℕ),
      (∀ v, (seen v : ℤ) + L.countP (fun e => e.voxel == v) ≤ cap v) →
      groupHeadAux cap seen L = L
  | [], _, _ => rfl
  | e :: l, seen, h => by
    have he := h e.voxel
    rw [List.countP_cons_of_pos _ _ (by simp)] at he
    simp only [groupHeadAux]
    rw [if_pos (by push_cast at he ⊢; omega)]
    congr 1
    apply groupHeadAux_keep_all cap l _
    intro v
    by_cases hv : v = e.voxel
    · subst hv
      simp only [if_pos rfl]
      push_cast at he ⊢
      omega
    · have hv' := h v
      rw [List.countP_cons_of_neg _ _
        (by simp only [beq_iff_eq]; exact fun hh => hv hh.symm)] at hv'
      simpa only [if_neg hv] using hv'

theorem filter_groupHeadAux (n : ℤ) (v : ℤ) :
    ∀ (L : List Obs) (seen : ℤ → ℕ),
      (groupHeadAux (fun _ => n) seen L).filter (fun e => decide (e.voxel = v)) =
        (L.filter (fun e => decide (e.voxel = v))).take (n - seen v).toNat
  | [], _ => by simp [groupHeadAux]
  | e :: l, seen => by
    simp only [groupHeadAux]
    by_cases hv : e.voxel = v
    · by_cases hkeep : (seen e.voxel : ℤ) < n
      · rw [if_pos hkeep, List.filter_cons_of_pos (by simp [hv]),
          List.filter_cons_of_pos (by simp [hv]), filter_groupHeadAux n v l _]
        have hs : (if v = e.voxel then seen v + 1 else seen v) = seen v + 1 :=
          if_pos hv.symm
        rw [hs]
        have hsv : (n - (seen v : ℤ)).toNat = (n - ((seen v : ℤ) + 1)).toNat + 1 := by
          rw [← hv] at *
          omega
        rw [hsv, List.take_succ_cons]
        push_cast
        ring_nf
      · rw [if_neg hkeep, filter_groupHeadAux n v l _]
        have hs : (if v = e.voxel then seen v + 1 else seen v) = seen v + 1 :=
          if_pos hv.symm
        rw [hs]
        have h1 : (n - ((seen v : ℤ) + 1)).toNat = 0 := by rw [← hv] at *; omega
        have h2 : (n - (seen v : ℤ)).toNat = 0 := by rw [← hv] at *; omega
        rw [List.filter_cons_of_pos (by simp [hv])]
        simp [h1, h2]
    · by_cases hkeep : (seen e.voxel : ℤ) < n
      · rw [if_pos hkeep, List.filter_cons_of_neg (by simp [hv]),
          List.filter_cons_of_neg (by simp [hv]), filter_groupHeadAux n v l _]
        rw [if_neg (fun hh => hv hh.symm)]
      · rw [if_neg hkeep, filter_groupHeadAux n v l _,
          List.filter_cons_of_neg (by simp [hv])]
        rw [if_neg (fun hh => hv hh.symm)]

/-! ## C5: reducer validation; C4: capping; C10: idempotence -/

/-- C5, counterexample. The claim says calling the reducer with
`max_per_voxel < 1` fails fast with InvalidConfiguration before any
computation. It does not: the function performs no validation at all. At the
concrete input of one row and `max_per_voxel = 0` it simply computes and
returns the empty frame. -/
theorem C5_counterexample_no_validation :
    reduce_event_count_per_voxel [⟨5, 7, 0⟩] 0 = [] := by decide

/-- C5, amended. The reducer never fails: `max_per_voxel` is not
validated anywhere (the sole `assert` of the module lives in `slices`). A
non-positive cap is passed straight to `GroupBy.head`; in particular
`max_per_voxel = 0` keeps no rows per group, so the reducer returns the
empty collection instead of raising. -/
theorem C5_amended_reducer_returns_empty (df : List Obs) :
    reduce_event_count_per_voxel df 0 = [] := by
  unfold reduce_event_count_per_voxel
  exact groupHeadAux_of_nonpos _ (fun v => by simp [headCap]) _ _

/-- C4. For every input frame and every `max_per_voxel ≥ 1`, the reducer
retains, within each voxel group, exactly the first `max_per_voxel` rows of
the group ordered by `num_obs` descending, ties among equal counts broken by
original input order (the sublist of the output lying in voxel `v` is
`take max_per_voxel` of the stable descending sort of the input's voxel-`v`
rows); groups with fewer than `max_per_voxel` rows are kept in full, since
`take` then returns the whole group. -/
theorem C4_reducer_caps_groups (df : List Obs) (n : ℤ) (hn : 1 ≤ n) (v : ℤ) :
    (reduce_event_count_per_voxel df n).filter (fun e => decide (e.voxel = v)) =
      ((df.filter (fun e => decide (e.voxel = v))).insertionSort nobsGE).take
        n.toNat := by
  unfold reduce_event_count_per_voxel
  have hcap : headCap n (df.insertionSort keyLE) = fun _ => n := by
    funext w
    rw [headCap, if_neg (by omega)]
  rw [hcap, filter_groupHeadAux n v (df.insertionSort keyLE) (fun _ => 0),
    filter_insertionSort (fun e => decide (e.voxel = v)) df]
  have hfil : ∀ e ∈ df.filter (fun e => decide (e.voxel = v)), e.voxel = v :=
    fun e he => by simpa using (List.mem_filter.mp he).2
  rw [insertionSort_congr (s := nobsGE)
    (fun a ha b hb => by
      rw [keyLE, nobsGE, hfil a ha, hfil b hb]
      omega)]
  norm_num

/-- Witness for C4: one voxel holding five rows with observation counts
`[10, 5, 5, 3, 1]` and `max_per_voxel = 3`; the three retained rows carry
counts `[10, 5, 5]`, the two ties surviving in their original relative input
order (tags `1` before `2`). -/
theorem C4_reducer_caps_groups_witness :
    (reduce_event_count_per_voxel
        [⟨7, 10, 0⟩, ⟨7, 5, 1⟩, ⟨7, 5, 2⟩, ⟨7, 3, 3⟩, ⟨7, 1, 4⟩] 3).filter
        (fun e => decide (e.voxel = 7)) =
      [⟨7, 10, 0⟩, ⟨7, 5, 1⟩, ⟨7, 5, 2⟩] :=
  (C4_reducer_caps_groups
    [⟨7, 10, 0⟩, ⟨7, 5, 1⟩, ⟨7, 5, 2⟩, ⟨7, 3, 3⟩, ⟨7, 1, 4⟩] 3
    (by norm_num) 7).trans (by decide)

/-- C10. The reducer is idempotent up to order normalization: whenever
every voxel group of the input already holds at most `max_per_voxel` rows,
the reducer's output equals the input once both sides are sorted by the
normalization order (voxel ascending, observation count descending). -/
theorem C10_reducer_idempotent (df : List Obs) (n : ℤ)
    (h : ∀ v : ℤ, (df.countP (fun e => e.voxel == v) : ℤ) ≤ n) :
    (reduce_event_count_per_voxel df n).insertionSort normLE =
      df.insertionSort normLE := by
  cases df with
  | nil => rfl
  | cons e df' =>
    have hred : reduce_event_count_per_voxel (e :: df') n =
        (e :: df').insertionSort keyLE := by
      unfold reduce_event_count_per_voxel
      apply groupHeadAux_keep_all
      intro v
      have hc : ((e :: df').insertionSort keyLE).countP (fun x => x.voxel == v) =
          (e :: df').countP (fun x => x.voxel == v) :=
        (List.perm_insertionSort keyLE (e :: df')).countP_eq _
      have hn1 : 1 ≤ n := by
        have h1 := h e.voxel
        rw [List.countP_cons_of_pos _ _ (by simp)] at h1
        have h2 : (0 : ℤ) ≤ (df'.countP (fun x => x.voxel == e.voxel) : ℤ) := by
          positivity
        push_cast at h1
        omega
      rw [headCap, if_neg (by omega), hc]
      have := h v
      omega
    rw [hred]
    apply sorted_eq_of_fiber_eq (r := normLE) (fun x : Obs => (x.voxel, x.num_obs))
    · intro a b hab hba
      unfold normLE at hab hba
      simp only [Prod.mk.injEq]
      constructor <;> omega
    · exact List.sorted_insertionSort normLE _
    · exact List.sorted_insertionSort normLE _
    · intro c
      have hfib : ((e :: df').insertionSort keyLE).filter
          (fun x => decide ((x.voxel, x.num_obs) = c)) =
          (e :: df').filter (fun x => decide ((x.voxel, x.num_obs) = c)) := by
        rw [filter_insertionSort]
        apply List.Sorted.insertionSort_eq
        apply List.pairwise_of_forall_mem_list
        intro a ha b hb
        have ha' : (a.voxel, a.num_obs) = c := by
          simpa using (List.mem_filter.mp ha).2
        have hb' : (b.voxel, b.num_obs) = c := by
          simpa using (List.mem_filter.mp hb).2
        rw [keyLE]
        have h1 : a.voxel = b.voxel := by
          have := ha'.trans hb'.symm
          simpa using congrArg Prod.fst this
        have h2 : a.num_obs = b.num_obs := by
          have := ha'.trans hb'.symm
          simpa using congrArg Prod.snd this
        omega
      rw [filter_insertionSort, hfib, filter_insertionSort]

/-- Witness for C10: a one-row frame whose single group holds one row, with
cap `2`. -/
theorem C10_reducer_idempotent_witness :
    (reduce_event_count_per_voxel [⟨1, 5, 0⟩] 2).insertionSort normLE =
      ([⟨1, 5, 0⟩] : List Obs).insertionSort normLE :=
  C10_reducer_idempotent [⟨1, 5, 0⟩] 2 (fun v => by
    have h1 : List.countP (fun e : Obs => e.voxel == v) [⟨1, 5, 0⟩] ≤ 1 :=
      List.countP_le_length _
    omega)

/-! ## Supporting lemmas: the cell enumeration -/

theorem length_flatMap_const {β : Type*} (f : ℕ → List β) (L n : ℕ)
    (hL : ∀ m, (f m).length = L) :
    ((List.range n).flatMap f).length = n * L := by
  induction n with
  | zero => simp
  | succ k ih =>
    rw [List.range_succ, List.flatMap_append, List.length_append, ih,
      List.flatMap_singleton, hL k]
    ring

theorem getElem?_flatMap_const {β : Type*} (f : ℕ → List β) (L : ℕ)
    (hL : ∀ m, (f m).length = L) :
    ∀ (n i r : ℕ), i < n → r < L →
      ((List.range n).flatMap f)[i * L + r]? = (f i)[r]?
  | 0, i, r, hi, _ => by omega
  | n + 1, i, r, hi, hr => by
    rw [List.range_succ, List.flatMap_append, List.flatMap_singleton]
    by_cases hin : i < n
    · rw [List.getElem?_append_left (by
        rw [length_flatMap_const f L n hL]
        calc i * L + r < i * L + L := by omega
          _ = (i + 1) * L := by ring
          _ ≤ n * L := Nat.mul_le_mul_right L (by omega))]
      exact getElem?_flatMap_const f L hL n i r hin hr
    · have hin' : i = n := by omega
      subst hin'
      rw [List.getElem?_append_right (by
        rw [length_flatMap_const f L i hL]
        omega)]
      rw [length_flatMap_const f L i hL]
      congr 1
      omega

theorem countP_flatMap_eq_sum {β : Type*} (p : β → Bool) :
    ∀ (l : List ℕ) (f : ℕ → List β),
      (l.flatMap f).countP p = (l.map fun a => (f a).countP p).sum
  | [], _ => rfl
  | a :: l, f => by
    rw [List.flatMap_cons, List.countP_append, List.map_cons, List.sum_cons,
      countP_flatMap_eq_sum p l f]

theorem sum_map_ite_const {β : Type*} (q : β → Bool) (c : ℕ) :
    ∀ l : List β, (l.map fun b => if q b then c else 0).sum = l.countP q * c
  | [] => by simp
  | a :: l => by
    rw [List.map_cons, List.sum_cons, sum_map_ite_const q c l, List.countP_cons]
    by_cases h : q a
    · simp [h]
      ring
    · simp [h]

theorem countP_cellTriples (A B C : ℕ → Bool) (nx ny nz : ℕ) :
    (cellTriples nx ny nz).countP (fun t => A t.1 && B t.2.1 && C t.2.2) =
      (List.range nx).countP A *
        ((List.range ny).countP B * (List.range nz).countP C) := by
  unfold cellTriples
  rw [countP_flatMap_eq_sum]
  have hinner : ∀ i j,
      (((List.range nz).map fun k => (i, j, k)).countP
        (fun t => A t.1 && B t.2.1 && C t.2.2)) =
        if A i && B j then (List.range nz).countP C else 0 := by
    intro i j
    rw [List.countP_map]
    by_cases hA : A i <;> by_cases hB : B j <;>
      simp [hA, hB, Function.comp_def]
  have hblock : ∀ i,
      (((List.range ny).flatMap fun j =>
          (List.range nz).map fun k => (i, j, k)).countP
        (fun t => A t.1 && B t.2.1 && C t.2.2)) =
        if A i then (List.range ny).countP B * (List.range nz).countP C
        else 0 := by
    intro i
    rw [countP_flatMap_eq_sum, List.map_congr_left fun j _ => hinner i j]
    by_cases hA : A i
    · simp only [hA, Bool.true_and]
      rw [sum_map_ite_const]
      simp
    · simp only [hA, Bool.false_and, if_neg (Bool.false_ne_true)]
      simp
  rw [List.map_congr_left fun i _ => hblock i, sum_map_ite_const]

theorem cellTriples_length (nx ny nz : ℕ) :
    (cellTriples nx ny nz).length = nx * (ny * nz) := by
  unfold cellTriples
  apply length_flatMap_const
  intro i
  exact length_flatMap_const _ nz ny fun m => by simp

theorem cellTriples_getElem? (nx ny nz i j k : ℕ) (hi : i < nx) (hj : j < ny)
    (hk : k < nz) :
    (cellTriples nx ny nz)[(i * ny + j) * nz + k]? = some (i, j, k) := by
  unfold cellTriples
  have harith : (i * ny + j) * nz + k = i * (ny * nz) + (j * nz + k) := by ring
  rw [harith]
  rw [getElem?_flatMap_const _ (ny * nz)
    (fun m => length_flatMap_const _ nz ny fun m' => by simp) nx i (j * nz + k)
    hi (by
      calc j * nz + k < j * nz + nz := by omega
        _ = (j + 1) * nz := by ring
        _ ≤ ny * nz := Nat.mul_le_mul_right nz (by omega))]
  rw [getElem?_flatMap_const _ nz (fun m => by simp) ny j k hj hk]
  rw [List.getElem?_map, List.getElem?_range hk]
  rfl

theorem voxelTable_length (X Y Z : List ℚ) :
    (voxelTable X Y Z).length =
      (X.length - 1) * ((Y.length - 1) * (Z.length - 1)) := by
  unfold voxelTable
  rw [List.length_map, List.enum_length, cellTriples_length]

theorem voxelTable_map_vnum (X Y Z : List ℚ) :
    (voxelTable X Y Z).map (fun c => c.Vnum) =
      (List.range ((X.length - 1) * ((Y.length - 1) * (Z.length - 1)))).map
        Int.ofNat := by
  unfold voxelTable
  rw [List.map_map]
  have h1 : ((fun c => c.Vnum) ∘ fun ic : ℕ × (ℕ × ℕ × ℕ) =>
      grab_voxel_info X Y Z ic.2 ic.1) = Int.ofNat ∘ Prod.fst := rfl
  rw [h1, ← List.map_map, List.enum_map_fst, cellTriples_length]

theorem voxelTable_getElem? (X Y Z : List ℚ) (i j k : ℕ)
    (hi : i < X.length - 1) (hj : j < Y.length - 1) (hk : k < Z.length - 1) :
    (voxelTable X Y Z)[(i * (Y.length - 1) + j) * (Z.length - 1) + k]? =
      some (grab_voxel_info X Y Z (i, j, k)
        ((i * (Y.length - 1) + j) * (Z.length - 1) + k)) := by
  unfold voxelTable
  rw [List.getElem?_map, List.getElem?_enum,
    cellTriples_getElem? _ _ _ i j k hi hj hk]
  rfl

/-- C7. A grid built from three axis boundary sequences of lengths
`(nx, ny, nz)` enumerates exactly `(nx-1)*(ny-1)*(nz-1)` cells; the voxel
numbers along the table are exactly `0, 1, ..., N-1` in order (each unique,
contiguous, no gaps or duplicates); and the cell stored at linear position
`(i * c_y + j) * c_z + k` — where `c_y`, `c_z` are the per-axis cell counts —
is exactly cell `(i, j, k)` carrying that number, which pins the numbering to
the nesting order `i` (X) outermost, `j` (Y), `k` (Z) innermost. -/
theorem C7_grid_enumeration (X Y Z : List ℚ) :
    (voxelTable X Y Z).length =
      (X.length - 1) * ((Y.length - 1) * (Z.length - 1)) ∧
    (voxelTable X Y Z).map (fun c => c.Vnum) =
      (List.range ((X.length - 1) * ((Y.length - 1) * (Z.length - 1)))).map
        Int.ofNat ∧
    ∀ i j k, i < X.length - 1 → j < Y.length - 1 → k < Z.length - 1 →
      (voxelTable X Y Z)[(i * (Y.length - 1) + j) * (Z.length - 1) + k]? =
        some (grab_voxel_info X Y Z (i, j, k)
          ((i * (Y.length - 1) + j) * (Z.length - 1) + k)) :=
  ⟨voxelTable_length X Y Z, voxelTable_map_vnum X Y Z,
   fun i j k hi hj hk => voxelTable_getElem? X Y Z i j k hi hj hk⟩

/-- Witness for C7 on the `3 × 3 × 2` boundary grid (`2 × 2 × 1` cells), at
cell `(1, 0, 0)`, whose linear number is `(1*2+0)*1+0 = 2`. -/
theorem C7_grid_enumeration_witness :
    (voxelTable [0, 1, 2] [0, 1, 2] [0, 1])[(1 * 2 + 0) * 1 + 0]? =
      some (grab_voxel_info [0, 1, 2] [0, 1, 2] [0, 1] (1, 0, 0)
        ((1 * 2 + 0) * 1 + 0)) :=
  (C7_grid_enumeration [0, 1, 2] [0, 1, 2] [0, 1]).2.2 1 0 0
    (by decide) (by decide) (by decide)

/-! ## Supporting lemmas: per-axis interval location -/

theorem getD_lt_getD_of_pairwise {X : List ℚ} (hX : X.Pairwise (· < ·))
    {i j : ℕ} (hij : i < j) (hj : j < X.length) :
    X.getD i 0 < X.getD j 0 := by
  rw [List.getD_eq_getElem?_getD, List.getD_eq_getElem?_getD,
    List.getElem?_eq_getElem (by omega), List.getElem?_eq_getElem hj]
  exact List.pairwise_iff_getElem.mp hX i j (by omega) hj hij

theorem axHit_false_of_le {X : List ℚ} (hX : X.Pairwise (· < ·)) {c : ℚ}
    (hc : c ≤ X.getD 0 0) {i : ℕ} (hi : i < X.length - 1) :
    axHit X c i = false := by
  have hle : X.getD 0 0 ≤ X.getD i 0 := by
    rcases Nat.eq_zero_or_pos i with h0 | h0
    · rw [h0]
    · exact le_of_lt (getD_lt_getD_of_pairwise hX h0 (by omega))
  simp only [axHit, Bool.and_eq_false_iff, decide_eq_false_iff_not, not_lt]
  left
  linarith

theorem axis_count_zero {X : List ℚ} (hX : X.Pairwise (· < ·)) {c : ℚ}
    (hc : c ≤ X.getD 0 0) :
    (List.range (X.length - 1)).countP (axHit X c) = 0 := by
  rw [List.countP_eq_zero]
  intro i hi
  rw [List.mem_range] at hi
  simp [axHit_false_of_le hX hc hi]

theorem axis_count_one {c : ℚ} :
    ∀ {X : List ℚ}, X.Pairwise (· < ·) → 2 ≤ X.length →
      X.getD 0 0 < c → c ≤ X.getD (X.length - 1) 0 →
      (List.range (X.length - 1)).countP (axHit X c) = 1
  | [], _, h2, _, _ => by simp at h2
  | [_], _, h2, _, _ => by simp at h2
  | a :: b :: T, hp, _, h0, hl => by
    have hsplit :
        (List.range ((a :: b :: T).length - 1)).countP (axHit (a :: b :: T) c) =
          (List.range ((b :: T).length - 1)).countP (axHit (b :: T) c) +
            (if axHit (a :: b :: T) c 0 then 1 else 0) := by
      have hlen : (a :: b :: T).length - 1 = ((b :: T).length - 1) + 1 := by
        simp
      rw [hlen, List.range_succ_eq_map, List.countP_cons, List.countP_map]
      congr 1
    rw [hsplit]
    rcases le_or_lt c b with hcb | hcb
    · have h1 : axHit (a :: b :: T) c 0 = true := by
        rw [axHit]
        simp only [List.getD_cons_zero, List.getD_cons_succ,
          Bool.and_eq_true, decide_eq_true_eq]
        exact ⟨by simpa using h0, by simpa using hcb⟩
      have h2 : (List.range ((b :: T).length - 1)).countP (axHit (b :: T) c) = 0 :=
        axis_count_zero hp.of_cons (by simpa using hcb)
      rw [h1, h2]
      simp
    · have h1 : axHit (a :: b :: T) c 0 = false := by
        rw [axHit]
        simp only [List.getD_cons_zero, List.getD_cons_succ,
          Bool.and_eq_false_iff, decide_eq_false_iff_not, not_le]
        right
        simpa using hcb
      cases T with
      | nil =>
        exact absurd (by simpa using hl) (not_le.mpr hcb)
      | cons d T' =>
        have htail : c ≤ (b :: d :: T').getD ((b :: d :: T').length - 1) 0 := by
          have hidx : (a :: b :: d :: T').length - 1 =
              (((b :: d :: T').length - 1) + 1) := by simp
          rw [hidx, List.getD_cons_succ] at hl
          exact hl
        have hrec := axis_count_one hp.of_cons (by simp)
          (by simpa using hcb) htail
        rw [h1, hrec]
        simp

theorem countP_matchesCell (X Y Z : List ℚ) (cx cy cz : ℚ) :
    (cellTriples (X.length - 1) (Y.length - 1) (Z.length - 1)).countP
      (matchesCell X Y Z (cx, cy, cz)) =
      (List.range (X.length - 1)).countP (axHit X cx) *
        ((List.range (Y.length - 1)).countP (axHit Y cy) *
          (List.range (Z.length - 1)).countP (axHit Z cz)) := by
  have hfun : matchesCell X Y Z (cx, cy, cz) = fun t : ℕ × ℕ × ℕ =>
      axHit X cx t.1 && axHit Y cy t.2.1 && axHit Z cz t.2.2 := rfl
  rw [hfun, countP_cellTriples]

/-- C6. Under the per-axis matching rule `low < coordinate ≤ high` of
lines 144-146: every point inside the bounding box that is not on a
lower-boundary-minimum edge (per axis: strictly above the axis minimum and
at most the axis maximum) is matched by exactly one cell of the grid, and
re-evaluating the selection at the same point yields the same voxel number;
the corner `(x_min, y_min, z_min)` is matched by no cell; and the corner
`(x_max, y_max, z_max)` is matched by the last cell on each axis — cell
`(c_x - 1, c_y - 1, c_z - 1)` — and by no other cell. -/
theorem C6_matching_rule (X Y Z : List ℚ)
    (hX : X.Pairwise (· < ·)) (hY : Y.Pairwise (· < ·))
    (hZ : Z.Pairwise (· < ·))
    (hx2 : 2 ≤ X.length) (hy2 : 2 ≤ Y.length) (hz2 : 2 ≤ Z.length) :
    (∀ cx cy cz : ℚ,
      X.getD 0 0 < cx → cx ≤ X.getD (X.length - 1) 0 →
      Y.getD 0 0 < cy → cy ≤ Y.getD (Y.length - 1) 0 →
      Z.getD 0 0 < cz → cz ≤ Z.getD (Z.length - 1) 0 →
      (cellTriples (X.length - 1) (Y.length - 1) (Z.length - 1)).countP
        (matchesCell X Y Z (cx, cy, cz)) = 1) ∧
    (∀ p q : ℚ × ℚ × ℚ, p = q → selectVoxel X Y Z p = selectVoxel X Y Z q) ∧
    (cellTriples (X.length - 1) (Y.length - 1) (Z.length - 1)).countP
      (matchesCell X Y Z (X.getD 0 0, Y.getD 0 0, Z.getD 0 0)) = 0 ∧
    matchesCell X Y Z
      (X.getD (X.length - 1) 0, Y.getD (Y.length - 1) 0,
        Z.getD (Z.length - 1) 0)
      (X.length - 2, Y.length - 2, Z.length - 2) = true ∧
    (cellTriples (X.length - 1) (Y.length - 1) (Z.length - 1)).countP
      (matchesCell X Y Z
        (X.getD (X.length - 1) 0, Y.getD (Y.length - 1) 0,
          Z.getD (Z.length - 1) 0)) = 1 := by
  refine ⟨?_, fun p q h => h ▸ rfl, ?_, ?_, ?_⟩
  · intro cx cy cz h1 h2 h3 h4 h5 h6
    rw [countP_matchesCell, axis_count_one hX hx2 h1 h2,
      axis_count_one hY hy2 h3 h4, axis_count_one hZ hz2 h5 h6]
  · rw [countP_matchesCell, axis_count_zero hX (le_refl _)]
    simp
  · have ex : X.length - 2 + 1 = X.length - 1 := by omega
    have ey : Y.length - 2 + 1 = Y.length - 1 := by omega
    have ez : Z.length - 2 + 1 = Z.length - 1 := by omega
    have hx := getD_lt_getD_of_pairwise hX
      (show X.length - 2 < X.length - 1 by omega) (show X.length - 1 < X.length by omega)
    have hy := getD_lt_getD_of_pairwise hY
      (show Y.length - 2 < Y.length - 1 by omega) (show Y.length - 1 < Y.length by omega)
    have hz := getD_lt_getD_of_pairwise hZ
      (show Z.length - 2 < Z.length - 1 by omega) (show Z.length - 1 < Z.length by omega)
    rw [matchesCell, axHit, axHit, axHit]
    simp only [ex, ey, ez, Bool.and_eq_true, decide_eq_true_eq]
    exact ⟨⟨⟨hx, le_refl _⟩, hy, le_refl _⟩, hz, le_refl _⟩
  · have h1x : X.getD 0 0 < X.getD (X.length - 1) 0 :=
      getD_lt_getD_of_pairwise hX (by omega) (by omega)
    have h1y : Y.getD 0 0 < Y.getD (Y.length - 1) 0 :=
      getD_lt_getD_of_pairwise hY (by omega) (by omega)
    have h1z : Z.getD 0 0 < Z.getD (Z.length - 1) 0 :=
      getD_lt_getD_of_pairwise hZ (by omega) (by omega)
    rw [countP_matchesCell, axis_count_one hX hx2 h1x (le_refl _),
      axis_count_one hY hy2 h1y (le_refl _),
      axis_count_one hZ hz2 h1z (le_refl _)]

/-- Witness for C6 on the grid `X = [0,1,2]`, `Y = [0,1]`, `Z = [0,1]` at the
interior point `(3/2, 1/2, 1/2)`: exactly one cell matches. -/
theorem C6_matching_rule_witness :
    (cellTriples (([0, 1, 2] : List ℚ).length - 1)
        (([0, 1] : List ℚ).length - 1) (([0, 1] : List ℚ).length - 1)).countP
      (matchesCell [0, 1, 2] [0, 1] [0, 1] (3/2, 1/2, 1/2)) = 1 :=
  (C6_matching_rule [0, 1, 2] [0, 1] [0, 1]
      (by norm_num) (by norm_num) (by norm_num)
      (by norm_num) (by norm_num) (by norm_num)).1
    (3/2) (1/2) (1/2)
    (by norm_num) (by norm_num) (by norm_num)
    (by norm_num) (by norm_num) (by norm_num)
